import Mathlib

/-!
Shallow embedding of `src/client/distrib_cache_reflector.py`, the fs123
distributed-cache UDP reflector.

The script keeps `contacts = defaultdict(int)`, a dict from peer address to
the timestamp of the last recorded contact, and runs one loop per inbound
datagram:

  data, address = sock.recvfrom(4096)
  logging.info(f"received {int(data[0])} ...")      -- raises on empty data
  now = time.time()
  last = contacts[address]                          -- defaultdict lookup
  if now - last < 10: continue                      -- per-source cooldown
  contacts[address] = now
  f = 50./(len(contacts)+1)
  for addr, when in list(contacts.items()):
      if random.random() < f: sock.sendto(data, 0, addr)
      if now - when > 300: del contacts[addr]

We model addresses as naturals, time and probabilities as rationals, the
dict as an insertion-ordered association list with unique keys (Python dict
semantics), the random stream as a function from draw index to a rational
in `[0,1)`, and the crash on `int(data[0])` and the `KeyError` of `del` as
the `Except` error case.
-/

/-- Peer network address (IP + port), modelled abstractly. -/
abbrev Addr := ℕ

/-- Raw datagram payload: a sequence of bytes. -/
abbrev Bytes := List ℕ

/-- The contact table: insertion-ordered association list from address to
last-recorded-contact timestamp, mirroring a Python dict. -/
abbrev Table := List (Addr × ℚ)

/-- The sends performed during one loop iteration: recipient and payload. -/
abbrev Sends := List (Addr × Bytes)

/-- The keys of the table, in order (Python `list(d)`). -/
def keysOf (t : Table) : List Addr := t.map Prod.fst

/-- Dict lookup `d[k]` as an option (no defaultdict effect). -/
def lookupT : Table → Addr → Option ℚ
  | [], _ => none
  | (b, v) :: rest, a => if b = a then some v else lookupT rest a

/-- Python `d[k] = v`: replace in place if the key is present, else append
(Python dicts preserve insertion order). -/
def setEntry : Table → Addr → ℚ → Table
  | [], a, v => [(a, v)]
  | (b, w) :: rest, a, v =>
    if b = a then (a, v) :: rest else (b, w) :: setEntry rest a v

/-- Remove every entry with the given key (on a table with unique keys this
is exactly Python dict removal). -/
def delAll : Table → Addr → Table
  | [], _ => []
  | (b, w) :: rest, a =>
    if b = a then delAll rest a else (b, w) :: delAll rest a

/-- Python `del d[k]`: raises `KeyError` when the key is absent
(line `del contacts[addr]` of the source). -/
def pyDelItem (t : Table) (a : Addr) : Except Unit Table :=
  match lookupT t a with
  | some _ => .ok (delAll t a)
  | none => .error ()

/-- `contacts[address]` on `defaultdict(int)`: return the stored timestamp,
or insert the sentinel `0` for a never-seen address and return `0`
(line `last = contacts[address]` of the source). -/
def ddLookup (t : Table) (a : Addr) : ℚ × Table :=
  match lookupT t a with
  | some v => (v, t)
  | none => (0, t ++ [(a, 0)])

/-- The fan-out factor `f = 50./(len(contacts)+1)` computed after the sender
has been inserted/refreshed. -/
def fanout (n : ℕ) : ℚ := 50 / ((n : ℚ) + 1)

/-- The contact table right after an accepted packet from `a` at time `now`
has been recorded: the side effect of the defaultdict lookup followed by
`contacts[address] = now`. This is also the snapshot
`list(contacts.items())` the reflection loop iterates over. -/
def acceptedTable (t : Table) (a : Addr) (now : ℚ) : Table :=
  setEntry (ddLookup t a).2 a now

/-- The reflection/eviction loop
`for addr, when in list(contacts.items()): ...`: walks the snapshot,
carrying the live table; for entry `i` it sends when `dr i < f` and then
evicts when `now - when > 300`. `del` on an absent key propagates as an
error. -/
def reflectPass (now f : ℚ) (dr : ℕ → ℚ) (data : Bytes) :
    List (Addr × ℚ) → Table → ℕ → Except Unit (Table × Sends)
  | [], t, _ => .ok (t, [])
  | (b, w) :: rest, t, i =>
    let s0 : Sends := if dr i < f then [(b, data)] else []
    match (if now - w > 300 then pyDelItem t b else .ok t) with
    | .error e => .error e
    | .ok t1 =>
      match reflectPass now f dr data rest t1 (i + 1) with
      | .error e => .error e
      | .ok (t2, s) => .ok (t2, s0 ++ s)

/-- One full iteration of the main loop for a datagram `data` from `address`
arriving at time `now`, with `dr` the stream of `random.random()` draws.
Returns the new table, the sends performed, and whether the packet was
accepted (not cooldown-rejected); the error case is an uncaught Python
exception (IndexError on `int(data[0])` for an empty payload, or KeyError
from `del`). -/
def step (tbl : Table) (data : Bytes) (address : Addr) (now : ℚ)
    (dr : ℕ → ℚ) : Except Unit (Table × Sends × Bool) :=
  if data = [] then .error ()
  else
    let last := (ddLookup tbl address).1
    let t1 := (ddLookup tbl address).2
    if now - last < 10 then .ok (t1, [], false)
    else
      let t2 := setEntry t1 address now
      match reflectPass now (fanout t2.length) dr data t2 t2 0 with
      | .error e => .error e
      | .ok (t3, s) => .ok (t3, s, true)

/-- The draw stream is a valid model of `random.random()`: every value lies
in `[0,1)`. -/
def validDraws (dr : ℕ → ℚ) : Prop := ∀ i, 0 ≤ dr i ∧ dr i < 1

/-- Probability that a uniform draw in `[0,1)` is below `f` (for the
nonnegative `f` the dispatcher uses): the measure of `[0, f) ∩ [0, 1)`. -/
def hitProb (f : ℚ) : ℚ := min f 1

/-- Expected number of recipients of one accepted packet, as the sum over
the snapshot entries of the per-entry probability that the
draw selects the entry. -/
def expectedRecipients (snap : List (Addr × ℚ)) : ℚ :=
  (snap.map (fun _ => hitProb (fanout snap.length))).sum

/-! ### Basic lemmas about the table operations -/

lemma mem_keysOf {t : Table} {c : Addr} : c ∈ keysOf t ↔ ∃ w, (c, w) ∈ t := by
  constructor
  · intro h
    rcases List.mem_map.mp h with ⟨⟨b, w⟩, hmem, hb⟩
    subst hb
    exact ⟨w, hmem⟩
  · rintro ⟨w, hw⟩
    exact List.mem_map.mpr ⟨(c, w), hw, rfl⟩

lemma lookupT_eq_none {t : Table} {a : Addr} : lookupT t a = none ↔ a ∉ keysOf t := by
  induction t with
  | nil => simp [lookupT, keysOf]
  | cons p rest ih =>
    obtain ⟨b, v⟩ := p
    by_cases h : b = a
    · subst h
      simp [lookupT, keysOf]
    · simp [lookupT, h, keysOf, ih, Ne.symm h]

lemma lookupT_of_mem_nodup {t : Table} {a : Addr} {v : ℚ}
    (hnd : (keysOf t).Nodup) (h : (a, v) ∈ t) : lookupT t a = some v := by
  induction t with
  | nil => cases h
  | cons p rest ih =>
    obtain ⟨b, w⟩ := p
    rcases List.mem_cons.mp h with he | hrest
    · obtain ⟨rfl, rfl⟩ := Prod.mk.injEq .. ▸ he
      · simp [lookupT]
    · have hb : b ≠ a := by
        intro hba
        subst hba
        have : b ∈ keysOf rest := mem_keysOf.mpr ⟨v, hrest⟩
        exact (List.nodup_cons.mp hnd).1 this
      simp only [lookupT, if_neg hb]
      exact ih (List.nodup_cons.mp hnd).2 hrest

lemma mem_setEntry_self (t : Table) (a : Addr) (v : ℚ) : (a, v) ∈ setEntry t a v := by
  induction t with
  | nil => simp [setEntry]
  | cons p rest ih =>
    obtain ⟨b, w⟩ := p
    by_cases h : b = a
    · simp [setEntry, h]
    · simp [setEntry, h, ih]

lemma keysOf_setEntry_mem {t : Table} {a : Addr} (v : ℚ) (h : a ∈ keysOf t) :
    keysOf (setEntry t a v) = keysOf t := by
  induction t with
  | nil => simp [keysOf] at h
  | cons p rest ih =>
    obtain ⟨b, w⟩ := p
    by_cases hb : b = a
    · simp [setEntry, hb, keysOf]
    · have ha : a ∈ keysOf rest := by
        simp only [keysOf, List.map_cons, List.mem_cons] at h
        rcases h with h1 | h1
        · exact absurd h1.symm hb
        · exact h1
      have h2 := ih ha
      simp only [keysOf] at h2 ⊢
      simp [setEntry, hb, h2]

lemma nodup_keys_acceptedTable {tbl : Table} {a : Addr} {now : ℚ}
    (hnd : (keysOf tbl).Nodup) : (keysOf (acceptedTable tbl a now)).Nodup := by
  unfold acceptedTable ddLookup
  cases hl : lookupT tbl a with
  | some v =>
    have ha : a ∈ keysOf tbl := by
      by_contra hc
      rw [lookupT_eq_none.mpr hc] at hl
      cases hl
    simpa [keysOf_setEntry_mem now ha] using hnd
  | none =>
    have ha : a ∉ keysOf tbl := lookupT_eq_none.mp hl
    have hmem : a ∈ keysOf (tbl ++ [(a, 0)]) := by simp [keysOf]
    rw [keysOf_setEntry_mem now hmem]
    simp only [keysOf, List.map_append, List.map_cons, List.map_nil]
    rw [List.nodup_append]
    refine ⟨hnd, List.nodup_singleton a, ?_⟩
    intro x hx hx1
    simp only [List.mem_singleton] at hx1
    subst hx1
    exact ha hx

lemma mem_delAll {t : Table} {a : Addr} {x : Addr × ℚ} :
    x ∈ delAll t a ↔ x ∈ t ∧ x.1 ≠ a := by
  induction t with
  | nil => simp [delAll]
  | cons p rest ih =>
    obtain ⟨b, w⟩ := p
    by_cases h : b = a
    · subst h
      rw [show delAll ((b, w) :: rest) b = delAll rest b from by simp [delAll]]
      rw [ih]
      constructor
      · rintro ⟨h1, h2⟩
        exact ⟨List.mem_cons_of_mem _ h1, h2⟩
      · rintro ⟨h1, h2⟩
        rcases List.mem_cons.mp h1 with h3 | h3
        · rw [h3] at h2
          simp at h2
        · exact ⟨h3, h2⟩
    · rw [show delAll ((b, w) :: rest) a = (b, w) :: delAll rest a from by simp [delAll, h]]
      constructor
      · intro h1
        rcases List.mem_cons.mp h1 with h3 | h3
        · subst h3
          exact ⟨List.mem_cons_self _ _, h⟩
        · obtain ⟨h4, h5⟩ := ih.mp h3
          exact ⟨List.mem_cons_of_mem _ h4, h5⟩
      · rintro ⟨h1, h2⟩
        rcases List.mem_cons.mp h1 with h3 | h3
        · subst h3
          exact List.mem_cons_self _ _
        · exact List.mem_cons_of_mem _ (ih.mpr ⟨h3, h2⟩)

lemma delAll_sublist (t : Table) (a : Addr) : List.Sublist (delAll t a) t := by
  induction t with
  | nil => simp [delAll]
  | cons p rest ih =>
    obtain ⟨b, w⟩ := p
    by_cases h : b = a
    · rw [show delAll ((b, w) :: rest) a = delAll rest a from by simp [delAll, h]]
      exact ih.cons (b, w)
    · rw [show delAll ((b, w) :: rest) a = (b, w) :: delAll rest a from by simp [delAll, h]]
      exact ih.cons₂ (b, w)

lemma pyDelItem_ok {t : Table} {a : Addr} (h : a ∈ keysOf t) :
    pyDelItem t a = .ok (delAll t a) := by
  unfold pyDelItem
  cases hl : lookupT t a with
  | some v => rfl
  | none => exact absurd (lookupT_eq_none.mp hl) (not_not.mpr h)

lemma pyDelItem_ok_inv {t t1 : Table} {a : Addr} (h : pyDelItem t a = .ok t1) :
    t1 = delAll t a := by
  unfold pyDelItem at h
  cases hl : lookupT t a with
  | some v => rw [hl] at h; cases h; rfl
  | none => rw [hl] at h; cases h

/-! ### Lemmas about the reflection/eviction loop -/

lemma reflectPass_cons_eq {now f : ℚ} {dr : ℕ → ℚ} {data : Bytes}
    {b : Addr} {w : ℚ} {rest : List (Addr × ℚ)} {t t1 t2 : Table} {i : ℕ} {s2 : Sends}
    (h1 : (if now - w > 300 then pyDelItem t b else .ok t) = .ok t1)
    (h2 : reflectPass now f dr data rest t1 (i + 1) = .ok (t2, s2)) :
    reflectPass now f dr data ((b, w) :: rest) t i =
      .ok (t2, (if dr i < f then [(b, data)] else []) ++ s2) := by
  simp only [reflectPass, h1, h2]

lemma reflectPass_cons_ok {now f : ℚ} {dr : ℕ → ℚ} {data : Bytes}
    {b : Addr} {w : ℚ} {rest : List (Addr × ℚ)} {t t' : Table} {i : ℕ} {s : Sends}
    (h : reflectPass now f dr data ((b, w) :: rest) t i = .ok (t', s)) :
    ∃ t1 s2, (if now - w > 300 then pyDelItem t b else .ok t) = .ok t1 ∧
      reflectPass now f dr data rest t1 (i + 1) = .ok (t', s2) ∧
      s = (if dr i < f then [(b, data)] else []) ++ s2 := by
  simp only [reflectPass] at h
  cases hdel : (if now - w > 300 then pyDelItem t b else .ok t) with
  | error e =>
    simp only [hdel] at h
    exact Except.noConfusion h
  | ok t1 =>
    simp only [hdel] at h
    cases hrec : reflectPass now f dr data rest t1 (i + 1) with
    | error e =>
      simp only [hrec] at h
      exact Except.noConfusion h
    | ok r =>
      obtain ⟨t2, s2⟩ := r
      simp only [hrec, Except.ok.injEq, Prod.mk.injEq] at h
      exact ⟨t1, s2, rfl, by rw [hrec, h.1], h.2.symm⟩

lemma keysOf_cons (b : Addr) (w : ℚ) (rest : Table) :
    keysOf ((b, w) :: rest) = b :: keysOf rest := rfl

lemma reflectPass_isOk {now f : ℚ} {dr : ℕ → ℚ} {data : Bytes} :
    ∀ (snap : List (Addr × ℚ)) (t : Table) (i : ℕ),
      (keysOf snap).Nodup → (∀ c ∈ keysOf snap, c ∈ keysOf t) →
      ∃ t' s, reflectPass now f dr data snap t i = .ok (t', s)
  | [], t, _, _, _ => ⟨t, [], rfl⟩
  | (b, w) :: rest, t, i, hnd, hsub => by
    have hb : b ∈ keysOf t := hsub b (by rw [keysOf_cons]; exact List.mem_cons_self _ _)
    rw [keysOf_cons, List.nodup_cons] at hnd
    have hnd' : (keysOf rest).Nodup := hnd.2
    have hbrest : b ∉ keysOf rest := hnd.1
    by_cases hc : now - w > 300
    · have hdel : (if now - w > 300 then pyDelItem t b else .ok t) = .ok (delAll t b) := by
        rw [if_pos hc, pyDelItem_ok hb]
      have hsub' : ∀ c ∈ keysOf rest, c ∈ keysOf (delAll t b) := by
        intro c hc2
        have hct : c ∈ keysOf t := hsub c (by rw [keysOf_cons]; exact List.mem_cons_of_mem _ hc2)
        have hcb : c ≠ b := fun hh => hbrest (hh ▸ hc2)
        rcases mem_keysOf.mp hct with ⟨v, hv⟩
        exact mem_keysOf.mpr ⟨v, mem_delAll.mpr ⟨hv, hcb⟩⟩
      obtain ⟨t', s, hrec⟩ := reflectPass_isOk rest (delAll t b) (i + 1) hnd' hsub'
      exact ⟨t', _, reflectPass_cons_eq hdel hrec⟩
    · have hdel : (if now - w > 300 then pyDelItem t b else .ok t) = .ok t := if_neg hc
      have hsub' : ∀ c ∈ keysOf rest, c ∈ keysOf t := fun c hc2 =>
        hsub c (by rw [keysOf_cons]; exact List.mem_cons_of_mem _ hc2)
      obtain ⟨t', s, hrec⟩ := reflectPass_isOk rest t (i + 1) hnd' hsub'
      exact ⟨t', _, reflectPass_cons_eq hdel hrec⟩

lemma reflectPass_step_table {now w : ℚ} {b : Addr} {t t1 : Table}
    (h1 : (if now - w > 300 then pyDelItem t b else .ok t) = .ok t1) :
    t1 = t ∨ t1 = delAll t b := by
  by_cases hc : now - w > 300
  · rw [if_pos hc] at h1
    exact Or.inr (pyDelItem_ok_inv h1)
  · rw [if_neg hc] at h1
    cases h1
    exact Or.inl rfl

lemma reflectPass_sublist {now f : ℚ} {dr : ℕ → ℚ} {data : Bytes} :
    ∀ (snap : List (Addr × ℚ)) (t t' : Table) (i : ℕ) (s : Sends),
      reflectPass now f dr data snap t i = .ok (t', s) → List.Sublist t' t
  | [], t, t', _, s, h => by
    simp only [reflectPass, Except.ok.injEq, Prod.mk.injEq] at h
    rw [← h.1]
  | (b, w) :: rest, t, t', i, s, h => by
    obtain ⟨t1, s2, hdel, hrec, _⟩ := reflectPass_cons_ok h
    have hs : List.Sublist t' t1 := reflectPass_sublist rest t1 t' (i + 1) s2 hrec
    rcases reflectPass_step_table hdel with h1 | h1
    · exact h1 ▸ hs
    · exact List.Sublist.trans (h1 ▸ hs) (delAll_sublist t b)

lemma reflectPass_evicts {now f : ℚ} {dr : ℕ → ℚ} {data : Bytes} :
    ∀ (snap : List (Addr × ℚ)) (t t' : Table) (i : ℕ) (s : Sends) (b : Addr) (w : ℚ),
      reflectPass now f dr data snap t i = .ok (t', s) → (b, w) ∈ snap →
      now - w > 300 → b ∉ keysOf t'
  | [], _, _, _, _, _, _, _, hmem, _ => absurd hmem (List.not_mem_nil _)
  | (c, w0) :: rest, t, t', i, s, b, w, h, hmem, hage => by
    obtain ⟨t1, s2, hdel, hrec, _⟩ := reflectPass_cons_ok h
    rcases List.mem_cons.mp hmem with he | hrest
    · obtain ⟨hc, hw⟩ := Prod.mk.injEq .. ▸ he
      subst hc
      subst hw
      rw [if_pos hage] at hdel
      have ht1 : t1 = delAll t b := pyDelItem_ok_inv hdel
      intro hb
      rcases mem_keysOf.mp hb with ⟨v, hv⟩
      have hv1 : (b, v) ∈ t1 := (reflectPass_sublist rest t1 t' (i + 1) s2 hrec).subset hv
      rw [ht1] at hv1
      exact (mem_delAll.mp hv1).2 rfl
    · exact reflectPass_evicts rest t1 t' (i + 1) s2 b w hrec hrest hage

lemma reflectPass_keeps_of_no_key {now f : ℚ} {dr : ℕ → ℚ} {data : Bytes} :
    ∀ (snap : List (Addr × ℚ)) (t t' : Table) (i : ℕ) (s : Sends) (b : Addr) (w : ℚ),
      reflectPass now f dr data snap t i = .ok (t', s) →
      (∀ p ∈ snap, p.1 ≠ b) → (b, w) ∈ t → (b, w) ∈ t'
  | [], t, t', _, s, b, w, h, _, hbt => by
    simp only [reflectPass, Except.ok.injEq, Prod.mk.injEq] at h
    rw [← h.1]
    exact hbt
  | (c, w0) :: rest, t, t', i, s, b, w, h, hkey, hbt => by
    obtain ⟨t1, s2, hdel, hrec, _⟩ := reflectPass_cons_ok h
    have hcb : c ≠ b := hkey (c, w0) (List.mem_cons_self _ _)
    have hbt1 : (b, w) ∈ t1 := by
      rcases reflectPass_step_table hdel with h1 | h1
      · rw [h1]; exact hbt
      · rw [h1]; exact mem_delAll.mpr ⟨hbt, fun hh => hcb hh.symm⟩
    exact reflectPass_keeps_of_no_key rest t1 t' (i + 1) s2 b w hrec
      (fun p hp => hkey p (List.mem_cons_of_mem _ hp)) hbt1

lemma reflectPass_keeps_fresh {now f : ℚ} {dr : ℕ → ℚ} {data : Bytes} :
    ∀ (snap : List (Addr × ℚ)) (t t' : Table) (i : ℕ) (s : Sends) (b : Addr) (w : ℚ),
      reflectPass now f dr data snap t i = .ok (t', s) → (keysOf snap).Nodup →
      (b, w) ∈ snap → now - w ≤ 300 → (b, w) ∈ t → (b, w) ∈ t'
  | [], _, _, _, _, _, _, _, _, hmem, _, _ => absurd hmem (List.not_mem_nil _)
  | (c, w0) :: rest, t, t', i, s, b, w, h, hnd, hmem, hage, hbt => by
    obtain ⟨t1, s2, hdel, hrec, _⟩ := reflectPass_cons_ok h
    simp only [keysOf, List.map_cons, List.nodup_cons] at hnd
    rcases List.mem_cons.mp hmem with he | hrest
    · obtain ⟨hc, hw⟩ := Prod.mk.injEq .. ▸ he
      subst hc
      subst hw
      rw [if_neg (not_lt.mpr hage)] at hdel
      cases hdel
      exact reflectPass_keeps_of_no_key rest t t' (i + 1) s2 b w hrec
        (fun p hp hpb => hnd.1 (hpb ▸ mem_keysOf.mpr ⟨p.2, by simpa using hp⟩)) hbt
    · have hb_rest : b ∈ keysOf rest := mem_keysOf.mpr ⟨w, hrest⟩
      have hcb : c ≠ b := fun hh => hnd.1 (hh ▸ hb_rest)
      have hbt1 : (b, w) ∈ t1 := by
        rcases reflectPass_step_table hdel with h1 | h1
        · rw [h1]; exact hbt
        · rw [h1]; exact mem_delAll.mpr ⟨hbt, fun hh => hcb hh.symm⟩
      exact reflectPass_keeps_fresh rest t1 t' (i + 1) s2 b w hrec hnd.2 hrest hage hbt1

lemma nodup_keys_of_sublist {t t' : Table} (hs : List.Sublist t' t)
    (hnd : (keysOf t).Nodup) : (keysOf t').Nodup :=
  List.Nodup.sublist (List.Sublist.map Prod.fst hs) hnd

lemma reflectPass_sends_all {now f : ℚ} {dr : ℕ → ℚ} {data : Bytes}
    (hf : 1 ≤ f) (hdr : validDraws dr) :
    ∀ (snap : List (Addr × ℚ)) (t t' : Table) (i : ℕ) (s : Sends),
      reflectPass now f dr data snap t i = .ok (t', s) →
      s = snap.map (fun p => (p.1, data))
  | [], t, t', _, s, h => by
    simp only [reflectPass, Except.ok.injEq, Prod.mk.injEq] at h
    rw [← h.2]
    rfl
  | (b, w) :: rest, t, t', i, s, h => by
    obtain ⟨t1, s2, _, hrec, hs⟩ := reflectPass_cons_ok h
    have hhit : dr i < f := lt_of_lt_of_le (hdr i).2 hf
    rw [hs, if_pos hhit, reflectPass_sends_all hf hdr rest t1 t' (i + 1) s2 hrec]
    rfl

/-! ### Lemmas about one main-loop iteration -/

lemma ddLookup_present {tbl : Table} {a : Addr} {v : ℚ} (h : lookupT tbl a = some v) :
    ddLookup tbl a = (v, tbl) := by
  unfold ddLookup
  rw [h]

lemma ddLookup_absent {tbl : Table} {a : Addr} (h : lookupT tbl a = none) :
    ddLookup tbl a = (0, tbl ++ [(a, 0)]) := by
  unfold ddLookup
  rw [h]

lemma step_empty_data (tbl : Table) (a : Addr) (now : ℚ) (dr : ℕ → ℚ) :
    step tbl [] a now dr = .error () := rfl

lemma step_rejected {tbl : Table} {data : Bytes} {a : Addr} {now : ℚ} {dr : ℕ → ℚ}
    (hd : data ≠ []) (hr : now - (ddLookup tbl a).1 < 10) :
    step tbl data a now dr = .ok ((ddLookup tbl a).2, [], false) := by
  simp only [step, if_neg hd, if_pos hr]

lemma step_accepted {tbl : Table} {data : Bytes} {a : Addr} {now : ℚ} {dr : ℕ → ℚ}
    {t3 : Table} {s : Sends}
    (hd : data ≠ []) (hr : ¬(now - (ddLookup tbl a).1 < 10))
    (hrec : reflectPass now (fanout (acceptedTable tbl a now).length) dr data
      (acceptedTable tbl a now) (acceptedTable tbl a now) 0 = .ok (t3, s)) :
    step tbl data a now dr = .ok (t3, s, true) := by
  simp only [acceptedTable] at hrec
  simp only [step, if_neg hd, if_neg hr, hrec]

lemma step_ok_inv {tbl : Table} {data : Bytes} {a : Addr} {now : ℚ} {dr : ℕ → ℚ}
    {t' : Table} {s : Sends}
    (h : step tbl data a now dr = .ok (t', s, true)) :
    data ≠ [] ∧ ¬(now - (ddLookup tbl a).1 < 10) ∧
      reflectPass now (fanout (acceptedTable tbl a now).length) dr data
        (acceptedTable tbl a now) (acceptedTable tbl a now) 0 = .ok (t', s) := by
  by_cases hd : data = []
  · rw [hd, step_empty_data] at h
    exact Except.noConfusion h
  · by_cases hr : now - (ddLookup tbl a).1 < 10
    · rw [step_rejected hd hr] at h
      simp at h
    · refine ⟨hd, hr, ?_⟩
      simp only [step, if_neg hd, if_neg hr] at h
      simp only [acceptedTable]
      cases hrec : reflectPass now (fanout (setEntry (ddLookup tbl a).2 a now).length) dr data
          (setEntry (ddLookup tbl a).2 a now) (setEntry (ddLookup tbl a).2 a now) 0 with
      | error e =>
        simp only [hrec] at h
        exact Except.noConfusion h
      | ok r =>
        obtain ⟨t3, s3⟩ := r
        simp only [hrec, Except.ok.injEq, Prod.mk.injEq] at h
        rw [h.1, h.2.1]

lemma one_le_fanout {n : ℕ} (h : n < 50) : 1 ≤ fanout n := by
  unfold fanout
  rw [le_div_iff (by positivity : (0 : ℚ) < (n : ℚ) + 1)]
  have hn : (n : ℚ) ≤ 49 := by exact_mod_cast Nat.lt_succ_iff.mp h
  linarith

lemma fanout_le_one {n : ℕ} (h : 50 ≤ n) : fanout n ≤ 1 := by
  unfold fanout
  rw [div_le_one (by positivity : (0 : ℚ) < (n : ℚ) + 1)]
  have hn : (50 : ℚ) ≤ (n : ℚ) := by exact_mod_cast h
  linarith

lemma sum_map_const (l : List (Addr × ℚ)) (c : ℚ) :
    (l.map (fun _ => c)).sum = l.length * c := by
  induction l with
  | nil => simp
  | cons p rest ih =>
    simp [ih]
    ring

/-! ### Claim theorems -/

/-- C1, counterexample: a packet from address 5 arriving at time 55, only 5
seconds after the stored contact time 50, is cooldown-rejected and the
stored timestamp stays 50 — it is not overwritten with the arrival time 55,
refuting the claim that the lookup unconditionally overwrites the stored
timestamp on every receipt. -/
theorem C1_counterexample :
    step [(7, 50)] [3] 7 55 (fun _ => 0) = .ok ([(7, 50)], [], false) ∧
    lookupT [(7, 50)] 7 = some 50 ∧ (50 : ℚ) ≠ 55 := by
  refine ⟨?_, rfl, by norm_num⟩
  norm_num [step, reflectPass, ddLookup, lookupT, setEntry, pyDelItem, delAll, fanout]

/-- C1, amended: the per-source lookup returns the stored timestamp of the
sender, but the stored value is overwritten with `now` only when the packet
passes the 10-second cooldown; a cooldown-rejected packet leaves the table
(and in particular the stored timestamp of the sender) unchanged. -/
theorem C1_record_on_accept_only {tbl : Table} {data : Bytes} {a : Addr}
    {now t0 : ℚ} {dr : ℕ → ℚ} (hd : data ≠ [])
    (hnd : (keysOf tbl).Nodup) (hpresent : lookupT tbl a = some t0) :
    (now - t0 < 10 → step tbl data a now dr = .ok (tbl, [], false)) ∧
    (¬(now - t0 < 10) → ∀ t' s acc, step tbl data a now dr = .ok (t', s, acc) →
      lookupT t' a = some now) := by
  have hdd := ddLookup_present hpresent
  constructor
  · intro hfast
    have hr : now - (ddLookup tbl a).1 < 10 := by rw [hdd]; exact hfast
    rw [step_rejected hd hr, hdd]
  · intro hslow t' s acc hstep
    have hr : ¬(now - (ddLookup tbl a).1 < 10) := by rw [hdd]; exact hslow
    have hnd2 : (keysOf (acceptedTable tbl a now)).Nodup := nodup_keys_acceptedTable hnd
    obtain ⟨t3, s3, hrec⟩ := reflectPass_isOk (acceptedTable tbl a now)
      (acceptedTable tbl a now) 0 hnd2 (fun c hc => hc)
    rw [step_accepted hd hr hrec] at hstep
    simp only [Except.ok.injEq, Prod.mk.injEq] at hstep
    have hmem : (a, now) ∈ acceptedTable tbl a now := mem_setEntry_self _ _ _
    have hkeep : (a, now) ∈ t3 :=
      reflectPass_keeps_fresh _ _ _ _ _ a now hrec hnd2 hmem
        (by rw [sub_self]; norm_num) hmem
    have hnd3 : (keysOf t3).Nodup :=
      nodup_keys_of_sublist (reflectPass_sublist _ _ _ _ _ hrec) hnd2
    rw [← hstep.1]
    exact lookupT_of_mem_nodup hnd3 hkeep

/-- C1, witness for the amended theorem at a concrete input. -/
theorem C1_witness :
    ((105 : ℚ) - 100 < 10 →
      step [(5, 100)] [2] 5 105 (fun _ => 0) = .ok ([(5, 100)], [], false)) ∧
    (¬((105 : ℚ) - 100 < 10) → ∀ t' s acc,
      step [(5, 100)] [2] 5 105 (fun _ => 0) = .ok (t', s, acc) →
      lookupT t' 5 = some 105) :=
  C1_record_on_accept_only (by simp) (by simp [keysOf]) rfl

/-- C2, counterexample: address 2 sends packets at times 200 (accepted),
209 (rejected) and 212; the packets at 209 and 212 are consecutive receipts
from address 2 less than 10 seconds apart, yet the one at 212 is reflected
(to contact 1 and to 2 itself), because the rejected packet at 209 did not
refresh the stored timestamp 200. -/
theorem C2_counterexample :
    step [] [1] 1 100 (fun _ => 0) = .ok ([(1, 100)], [(1, [1])], true) ∧
    step [(1, 100)] [1] 2 200 (fun _ => 0) =
      .ok ([(1, 100), (2, 200)], [(1, [1]), (2, [1])], true) ∧
    step [(1, 100), (2, 200)] [1] 2 209 (fun _ => 0) =
      .ok ([(1, 100), (2, 200)], [], false) ∧
    step [(1, 100), (2, 200)] [1] 2 212 (fun _ => 0) =
      .ok ([(1, 100), (2, 212)], [(1, [1]), (2, [1])], true) ∧
    (212 : ℚ) - 209 < 10 ∧
    ([(1, [1]), (2, [1])] : Sends) ≠ [] := by
  refine ⟨?_, ?_, ?_, ?_, by norm_num, by simp⟩ <;>
    norm_num [step, reflectPass, ddLookup, lookupT, setEntry, pyDelItem, delAll, fanout]

/-- C2, amended: a packet from `a` is dropped (reflected to no one) exactly
when it arrives less than 10 seconds after the *last recorded* contact from
`a`, i.e. the last packet that passed the cooldown; since rejected packets
do not refresh the stored timestamp, two consecutive receipts less than 10
seconds apart do not by themselves imply the second is dropped. -/
theorem C2_cooldown_from_recorded {tbl : Table} {data : Bytes} {a : Addr}
    {now t0 : ℚ} {dr : ℕ → ℚ} (hd : data ≠ [])
    (hpresent : lookupT tbl a = some t0) (hfast : now - t0 < 10) :
    ∃ t' acc, step tbl data a now dr = .ok (t', [], acc) := by
  have hdd := ddLookup_present hpresent
  have hr : now - (ddLookup tbl a).1 < 10 := by rw [hdd]; exact hfast
  exact ⟨tbl, false, by rw [step_rejected hd hr, hdd]⟩

/-- C2, witness for the amended theorem at a concrete input. -/
theorem C2_witness :
    ∃ t' acc, step [(1, 100), (2, 200)] [1] 2 209 (fun _ => 0) = .ok (t', [], acc) :=
  C2_cooldown_from_recorded (by simp) rfl (by norm_num)

/-- C3 (code bug): a zero-length datagram crashes the relay — the logging
call evaluates `int(data[0])`, which raises IndexError on empty bytes
before the cooldown check is ever reached, so the empty payload is neither
rate-limited nor reflected; the loop iteration ends in an uncaught
exception. -/
theorem C3_empty_packet_crashes :
    step [(1, 50), (2, 60)] [] 3 1000 (fun _ => 0) = .error () := rfl

/-- C4, counterexample: with 3 fresh contacts (each contacted 1 second ago)
and a new 4th sender, the accepted packet is reflected to all 4 table
entries — including the sender itself (address 4), refuting "reflected to
exactly those original 3 contacts and not back to the sender". -/
theorem C4_counterexample :
    step [(1, 99), (2, 99), (3, 99)] [7] 4 100 (fun _ => 0) =
      .ok ([(1, 99), (2, 99), (3, 99), (4, 100)],
        [(1, [7]), (2, [7]), (3, [7]), (4, [7])], true) ∧
    ((4, [7]) : Addr × Bytes) ∈ ([(1, [7]), (2, [7]), (3, [7]), (4, [7])] : Sends) := by
  constructor
  · norm_num [step, reflectPass, ddLookup, lookupT, setEntry, pyDelItem, delAll, fanout]
  · simp

/-- C4, amended: in the 3-fresh-contacts scenario the table size does become
4, but the reflection loop iterates over every table entry including the
just-refreshed sender, so the packet goes to the 3 original contacts and to
the sender itself (4 sends in total). -/
theorem C4_amended_scenario :
    ∃ t' s, step [(1, 99), (2, 99), (3, 99)] [7] 4 100 (fun _ => 0) = .ok (t', s, true) ∧
      t'.length = 4 ∧
      s = [(1, [7]), (2, [7]), (3, [7]), (4, [7])] := by
  refine ⟨[(1, 99), (2, 99), (3, 99), (4, 100)],
    [(1, [7]), (2, [7]), (3, [7]), (4, [7])], ?_, rfl, rfl⟩
  norm_num [step, reflectPass, ddLookup, lookupT, setEntry, pyDelItem, delAll, fanout]

/-- C5 (confirmed): the fan-out factor is `50 / (N + 1)` for `N` the table
size after the sender is inserted/refreshed, and whenever `N < 50` it is at
least 1, so with all draws in `[0,1)` every snapshot entry receives the
packet: the sends are exactly the snapshot, in order. -/
theorem C5_full_fanout_below_fifty {tbl : Table} {data : Bytes} {a : Addr}
    {now : ℚ} {dr : ℕ → ℚ} (hd : data ≠ []) (hdr : validDraws dr)
    (hnd : (keysOf tbl).Nodup)
    (hacc : ¬(now - (ddLookup tbl a).1 < 10))
    (hsize : (acceptedTable tbl a now).length < 50) :
    1 ≤ fanout (acceptedTable tbl a now).length ∧
    ∃ t', step tbl data a now dr =
      .ok (t', (acceptedTable tbl a now).map (fun p => (p.1, data)), true) := by
  have hf : 1 ≤ fanout (acceptedTable tbl a now).length := one_le_fanout hsize
  refine ⟨hf, ?_⟩
  have hnd2 : (keysOf (acceptedTable tbl a now)).Nodup := nodup_keys_acceptedTable hnd
  obtain ⟨t3, s3, hrec⟩ := reflectPass_isOk (acceptedTable tbl a now)
    (acceptedTable tbl a now) 0 hnd2 (fun c hc => hc)
  have hsends := reflectPass_sends_all hf hdr _ _ _ _ _ hrec
  exact ⟨t3, by rw [← hsends]; exact step_accepted hd hacc hrec⟩

/-- C5, witness at a concrete input. -/
theorem C5_witness :
    1 ≤ fanout (acceptedTable [(1, 99), (2, 99), (3, 99)] 4 100).length ∧
    ∃ t', step [(1, 99), (2, 99), (3, 99)] [7] 4 100 (fun _ => 0) =
      .ok (t', (acceptedTable [(1, 99), (2, 99), (3, 99)] 4 100).map (fun p => (p.1, [7])),
        true) :=
  C5_full_fanout_below_fifty (by simp) (fun i => ⟨le_refl 0, by norm_num⟩)
    (by simp [keysOf]) (by norm_num [ddLookup, lookupT])
    (by norm_num [acceptedTable, ddLookup, lookupT, setEntry])

/-- C6 (confirmed): during an accepted pass at time `now`, a scanned entry
older than 300 seconds is evicted regardless of the forwarding draws, while
an entry of age at most 300 seconds survives with its timestamp intact. -/
theorem C6_eviction_threshold {tbl : Table} {data : Bytes} {a b : Addr}
    {now w : ℚ} {dr : ℕ → ℚ} {t' : Table} {s : Sends}
    (hnd : (keysOf tbl).Nodup)
    (hstep : step tbl data a now dr = .ok (t', s, true))
    (hmem : (b, w) ∈ acceptedTable tbl a now) :
    (now - w > 300 → b ∉ keysOf t') ∧ (now - w ≤ 300 → (b, w) ∈ t') := by
  obtain ⟨hd, hr, hrec⟩ := step_ok_inv hstep
  constructor
  · intro hage
    exact reflectPass_evicts _ _ _ _ _ b w hrec hmem hage
  · intro hage
    exact reflectPass_keeps_fresh _ _ _ _ _ b w hrec
      (nodup_keys_acceptedTable hnd) hmem hage hmem

/-- C6, witness: address 1, last contacted at time 0, is scanned by the pass
at time 301 and evicted. -/
theorem C6_witness :
    ((301 : ℚ) - 0 > 300 → (1 : Addr) ∉ keysOf [(2, 301)]) ∧
    ((301 : ℚ) - 0 ≤ 300 → ((1 : Addr), (0 : ℚ)) ∈ ([(2, 301)] : Table)) :=
  @C6_eviction_threshold [(1, 0), (2, 290)] [9] 2 1 301 0 (fun _ => 0)
    [(2, 301)] [(1, [9]), (2, [9])] (by simp [keysOf])
    (by norm_num [step, reflectPass, ddLookup, lookupT, setEntry, pyDelItem, delAll, fanout])
    (by norm_num [acceptedTable, ddLookup, lookupT, setEntry])

/-- C7, counterexample: deleting an address that is not in the table is an
error (Python KeyError), not a no-op — `del` on the absent address 2
does not return the unchanged table. -/
theorem C7_counterexample :
    pyDelItem [(1, 5)] 2 = .error () ∧ pyDelItem [(1, 5)] 2 ≠ .ok [(1, 5)] := by
  refine ⟨rfl, ?_⟩
  intro h
  rw [show pyDelItem [(1, 5)] 2 = .error () from rfl] at h
  exact Except.noConfusion h

/-- C7, amended: eviction of an absent address raises KeyError rather than
being a no-op, but the reflection pass only ever deletes addresses present
in the live table: whenever the keys of the snapshot are distinct and all
present (as holds when a pass starts, the snapshot being the table itself),
the pass completes without error. -/
theorem C7_pass_never_errors {now f : ℚ} {dr : ℕ → ℚ} {data : Bytes}
    {snap : List (Addr × ℚ)} {t : Table} {i : ℕ}
    (hnd : (keysOf snap).Nodup) (hsub : ∀ c ∈ keysOf snap, c ∈ keysOf t) :
    ∃ t' s, reflectPass now f dr data snap t i = .ok (t', s) :=
  reflectPass_isOk snap t i hnd hsub

/-- C7, witness at a concrete input: a pass over a snapshot containing a
stale entry (age 350) deletes it without error. -/
theorem C7_witness :
    ∃ t' s, reflectPass 400 1 (fun _ => 0) [1] [(1, 50), (2, 350)]
      [(1, 50), (2, 350)] 0 = .ok (t', s) :=
  C7_pass_never_errors (by simp [keysOf]) (fun c hc => hc)

/-- C8, counterexample: for a snapshot of exactly 50 entries the per-entry
forwarding probability is `min (50/51) 1 = 50/51`, so the expected number
of recipients is `50 · 50/51 = 2500/51`, which is not exactly 50. -/
theorem C8_counterexample :
    ((List.range 50).map (fun i => ((i : Addr), (0 : ℚ)))).length = 50 ∧
    expectedRecipients ((List.range 50).map (fun i => ((i : Addr), (0 : ℚ)))) ≠ 50 := by
  have hlen : ((List.range 50).map (fun i => ((i : Addr), (0 : ℚ)))).length = 50 := by
    simp
  refine ⟨hlen, ?_⟩
  rw [expectedRecipients, sum_map_const, hlen]
  have hm : hitProb (fanout 50) = 50 / 51 := by
    rw [hitProb, fanout]
    rw [min_eq_left (by norm_num)]
    norm_num
  rw [hm]
  norm_num

/-- C8, amended: for a table of size `N ≥ 50` the expected number of
recipients per accepted packet (sum over the snapshot of the per-entry
selection probability `50/(N+1)`) is `50N/(N+1)` — strictly below 50 but
above 49, approaching 50 as the population grows. -/
theorem C8_expected_fanout {snap : List (Addr × ℚ)} (h : 50 ≤ snap.length) :
    expectedRecipients snap = 50 * (snap.length : ℚ) / ((snap.length : ℚ) + 1) ∧
    expectedRecipients snap < 50 ∧ 49 < expectedRecipients snap := by
  have hpos : (0 : ℚ) < (snap.length : ℚ) + 1 := by positivity
  have hn : (50 : ℚ) ≤ (snap.length : ℚ) := by exact_mod_cast h
  have hhit : hitProb (fanout snap.length) = fanout snap.length :=
    min_eq_left (fanout_le_one h)
  have he : expectedRecipients snap =
      50 * (snap.length : ℚ) / ((snap.length : ℚ) + 1) := by
    rw [expectedRecipients, sum_map_const, hhit, fanout]
    field_simp
    ring
  refine ⟨he, ?_, ?_⟩
  · rw [he, div_lt_iff hpos]
    linarith
  · rw [he, lt_div_iff hpos]
    linarith

/-- C8, witness for the amended theorem at a concrete 50-entry snapshot. -/
theorem C8_witness :
    expectedRecipients ((List.range 50).map (fun i => ((i : Addr), (0 : ℚ)))) =
      50 * (((List.range 50).map (fun i => ((i : Addr), (0 : ℚ)))).length : ℚ) /
        ((((List.range 50).map (fun i => ((i : Addr), (0 : ℚ)))).length : ℚ) + 1) ∧
    expectedRecipients ((List.range 50).map (fun i => ((i : Addr), (0 : ℚ)))) < 50 ∧
    49 < expectedRecipients ((List.range 50).map (fun i => ((i : Addr), (0 : ℚ)))) :=
  C8_expected_fanout (by simp)

/-- C9 (confirmed): when the arrival time is at least 10 and the sender is
present with a stored timestamp less than 10 seconds old, the iteration is
atomic-on-error — the table is returned unchanged (no refresh, no
insertion, no eviction) and no send is performed. -/
theorem C9_reject_is_atomic {tbl : Table} {data : Bytes} {a : Addr}
    {now t0 : ℚ} {dr : ℕ → ℚ} (hd : data ≠ []) (hnow : 10 ≤ now)
    (hpresent : lookupT tbl a = some t0) (hfast : now - t0 < 10) :
    step tbl data a now dr = .ok (tbl, [], false) := by
  have hdd := ddLookup_present hpresent
  have hr : now - (ddLookup tbl a).1 < 10 := by rw [hdd]; exact hfast
  rw [step_rejected hd hr, hdd]

/-- C9, witness at a concrete input. -/
theorem C9_witness :
    step [(5, 100)] [1] 5 105 (fun _ => 0) = .ok ([(5, 100)], [], false) :=
  C9_reject_is_atomic (by simp) (by norm_num) rfl (by norm_num)

/-- C10 (confirmed): after an accepted packet at time `now` has been fully
processed, every entry remaining in the table has age at most 300 seconds:
stale entries never survive a completed pass. -/
theorem C10_no_stale_survivors {tbl : Table} {data : Bytes} {a : Addr}
    {now : ℚ} {dr : ℕ → ℚ} {t' : Table} {s : Sends}
    (h : step tbl data a now dr = .ok (t', s, true)) :
    ∀ b w, (b, w) ∈ t' → now - w ≤ 300 := by
  obtain ⟨hd, hr, hrec⟩ := step_ok_inv h
  intro b w hbw
  by_contra hgt
  push_neg at hgt
  have hmem : (b, w) ∈ acceptedTable tbl a now :=
    (reflectPass_sublist _ _ _ _ _ hrec).subset hbw
  exact reflectPass_evicts _ _ _ _ _ b w hrec hmem hgt (mem_keysOf.mpr ⟨w, hbw⟩)

/-- C10, witness at a concrete input: the pass at time 301 (sender 3,
previously unseen) evicts the stale contact 1 of age 301 and keeps contact
2 of timestamp 290, whose age 11 is indeed at most 300. -/
theorem C10_witness : (301 : ℚ) - 290 ≤ 300 :=
  @C10_no_stale_survivors [(1, 0), (2, 290)] [9] 3 301 (fun _ => 0)
    [(2, 290), (3, 301)] [(1, [9]), (2, [9]), (3, [9])]
    (by norm_num [step, reflectPass, ddLookup, lookupT, setEntry, pyDelItem, delAll, fanout])
    2 290 (by simp)
